import Mathlib

noncomputable section

/-!
Shallow embedding of the crystal-lattice generator (crystal_generator.py).

Conventions of the embedding:
* double-precision floats are idealized as real numbers;
* numpy 3-vectors become triples of reals with explicit addition and
  scalar multiplication;
* the numpy random generator is abstracted by a `NoiseOracle`, a function
  giving, for each cell index (i, j, k) and basis index, the standard
  normal 3-vector drawn for that atom; the code scales it by the standard
  deviation noise_level * a exactly as np.random.normal does, and
  np.random.normal's validation of that scale (ValueError when it is
  negative, raised at the first draw) is the generators' error path;
* a Python function that can raise returns an `Option`, with `none` for
  the raised exception (ValueError for an unknown lattice type, for a
  negative noise scale, for np.vstack on an empty argument list or on
  mismatched row widths, and for np.zeros on a negative size);
* np.vstack's row semantics are kept: a chunk with atoms is an (m, 3)
  array contributing its m rows, while an empty chunk is the 1-D empty
  array np.array([]) that np.vstack promotes to a single row of width 0;
* Python lists become Lean lists; nested for-loops that append to a list
  become nested `List.flatMap`;
* the process pool only affects scheduling, not the value computed: each
  chunk is an independent pure computation, a worker exception aborts the
  whole request, and successful results are reassembled in submission
  order, so the parallel driver is embedded as error propagation followed
  by the in-order stacking of the per-chunk results.
-/

/-- A 3-D point (a row of a numpy array of shape (N, 3)). -/
abbrev Vec3 : Type := ℝ × ℝ × ℝ

/-- Componentwise addition of 3-vectors (numpy array addition). -/
def vadd (u v : Vec3) : Vec3 := (u.1 + v.1, u.2.1 + v.2.1, u.2.2 + v.2.2)

/-- Scalar multiplication of a 3-vector (numpy scalar-array product). -/
def vsmul (r : ℝ) (v : Vec3) : Vec3 := (r * v.1, r * v.2.1, r * v.2.2)

/-- The seven crystal systems appearing as the syngony field of the
LATTICE_TYPES table. -/
inductive Syngony
  | triclinic
  | monoclinic
  | orthorhombic
  | tetragonal
  | hexagonal
  | trigonal
  | cubic
deriving DecidableEq

/-- The five centering codes appearing in the LATTICE_TYPES table. -/
inductive Centering
  | P
  | C
  | I
  | F
  | R
deriving DecidableEq

/-- One entry of the LATTICE_TYPES table: the syngony and centering code of
a lattice class.  The Russian display name is not modelled: no computation
reads it. -/
structure LatticeInfo where
  syngony : Syngony
  centering : Centering
deriving DecidableEq

/-- The class attribute CrystalLattice.LATTICE_TYPES: the fixed dictionary
from lattice-type identifier to its info, embedded as a lookup function.
Exactly the fourteen keys of the source dictionary are recognized. -/
def LATTICE_TYPES (s : String) : Option LatticeInfo :=
  if s = "triclinic_primitive" then some ⟨.triclinic, .P⟩
  else if s = "monoclinic_primitive" then some ⟨.monoclinic, .P⟩
  else if s = "monoclinic_base" then some ⟨.monoclinic, .C⟩
  else if s = "orthorhombic_primitive" then some ⟨.orthorhombic, .P⟩
  else if s = "orthorhombic_base" then some ⟨.orthorhombic, .C⟩
  else if s = "orthorhombic_body" then some ⟨.orthorhombic, .I⟩
  else if s = "orthorhombic_face" then some ⟨.orthorhombic, .F⟩
  else if s = "tetragonal_primitive" then some ⟨.tetragonal, .P⟩
  else if s = "tetragonal_body" then some ⟨.tetragonal, .I⟩
  else if s = "hexagonal" then some ⟨.hexagonal, .P⟩
  else if s = "trigonal_rhombohedral" then some ⟨.trigonal, .R⟩
  else if s = "cubic_primitive" then some ⟨.cubic, .P⟩
  else if s = "cubic_body" then some ⟨.cubic, .I⟩
  else if s = "cubic_face" then some ⟨.cubic, .F⟩
  else none

/-- The fourteen recognized lattice-type identifiers, in table order. -/
def validLatticeTypes : List String :=
  ["triclinic_primitive", "monoclinic_primitive", "monoclinic_base",
   "orthorhombic_primitive", "orthorhombic_base", "orthorhombic_body",
   "orthorhombic_face", "tetragonal_primitive", "tetragonal_body",
   "hexagonal", "trigonal_rhombohedral", "cubic_primitive", "cubic_body",
   "cubic_face"]

/-- A fully initialized CrystalLattice object: its info entry and the six
canonical lattice parameters stored by __init__ after constraint
projection. -/
structure CrystalLattice where
  info : LatticeInfo
  a : ℝ
  b : ℝ
  c : ℝ
  alpha : ℝ
  beta : ℝ
  gamma : ℝ

/-- CrystalLattice._apply_syngony_constraints: projects the six raw
parameters onto the symmetry constraints of the given syngony.  The Python
if/elif chain covers all seven syngony strings stored in LATTICE_TYPES, so
its trailing fall-through return is unreachable and the embedding is a
total match on the seven-constructor syngony type. -/
def apply_syngony_constraints (syngony : Syngony) (a b c alpha beta gamma : ℝ) :
    ℝ × ℝ × ℝ × ℝ × ℝ × ℝ :=
  match syngony with
  | .cubic => (a, a, a, 90, 90, 90)
  | .tetragonal => (a, a, c, 90, 90, 90)
  | .orthorhombic => (a, b, c, 90, 90, 90)
  | .hexagonal => (a, a, c, 90, 90, 120)
  | .trigonal => (a, a, a, alpha, alpha, alpha)
  | .monoclinic => (a, b, c, 90, beta, 90)
  | .triclinic => (a, b, c, alpha, beta, gamma)

/-- CrystalLattice.__init__: looks the identifier up in LATTICE_TYPES,
raising ValueError (observed as none, with no object constructed and hence
no partial state) when it is absent, and otherwise stores the info entry
and the constraint-projected parameters. -/
def mkCrystalLattice (lattice_type : String) (a b c alpha beta gamma : ℝ) :
    Option CrystalLattice :=
  match LATTICE_TYPES lattice_type with
  | none => none
  | some info =>
      let p := apply_syngony_constraints info.syngony a b c alpha beta gamma
      some ⟨info, p.1, p.2.1, p.2.2.1, p.2.2.2.1, p.2.2.2.2.1, p.2.2.2.2.2⟩

/-- np.radians: degrees to radians. -/
def radians (x : ℝ) : ℝ := x * Real.pi / 180

/-- CrystalLattice.get_lattice_vectors: the three unit-cell vectors, rows
of the returned 3 x 3 numpy array. -/
def CrystalLattice.get_lattice_vectors (L : CrystalLattice) : Vec3 × Vec3 × Vec3 :=
  let alpha_rad := radians L.alpha
  let beta_rad := radians L.beta
  let gamma_rad := radians L.gamma
  let cx := L.c * Real.cos beta_rad
  let cy := L.c * (Real.cos alpha_rad - Real.cos beta_rad * Real.cos gamma_rad) /
      Real.sin gamma_rad
  let cz := Real.sqrt (L.c ^ 2 - cx ^ 2 - cy ^ 2)
  ((L.a, 0, 0),
   (L.b * Real.cos gamma_rad, L.b * Real.sin gamma_rad, 0),
   (cx, cy, cz))

/-- The body of CrystalLattice.get_basis_positions as a function of the
centering code it branches on: the primitive node (0,0,0) followed by the
centering-specific offsets.  The if/elif chain has no branch for P, which
therefore keeps only the primitive node. -/
def basisPositionsOfCentering (centering : Centering) : List Vec3 :=
  match centering with
  | .I => [(0, 0, 0), (0.5, 0.5, 0.5)]
  | .F => [(0, 0, 0), (0.5, 0.5, 0), (0.5, 0, 0.5), (0, 0.5, 0.5)]
  | .C => [(0, 0, 0), (0.5, 0.5, 0)]
  | .R => [(0, 0, 0), (1/3, 2/3, 2/3), (2/3, 1/3, 1/3)]
  | .P => [(0, 0, 0)]

/-- CrystalLattice.get_basis_positions: reads the centering code of the
lattice's info entry and returns the fractional atom positions of the
unit cell. -/
def CrystalLattice.get_basis_positions (L : CrystalLattice) : List Vec3 :=
  basisPositionsOfCentering L.info.centering

/-- Abstraction of the numpy random stream: the standard normal 3-vector
drawn for the atom at cell index (i, j, k) and basis index b. -/
def NoiseOracle : Type := ℕ → ℕ → ℕ → ℕ → Vec3

/-- CrystalLattice.generate_lattice: nested loops over i < nx, j < ny,
k < nz and the basis positions; each atom is the cell origin plus the
fractional basis offset in lattice coordinates, plus, when noise is
enabled, a normal draw with standard deviation noise_level * a.
np.random.normal validates its scale argument and raises ValueError when
noise_level * a is negative; that raise happens at the first draw, which
is reached exactly when every extent is positive (the basis list is never
empty), so the call errors (none) in precisely that case and otherwise
returns the loop's point list. -/
def CrystalLattice.generate_lattice (L : CrystalLattice) (nx ny nz : ℕ)
    (add_noise : Bool) (noise_level : ℝ) (rng : NoiseOracle) : Option (List Vec3) :=
  let lattice_vectors := L.get_lattice_vectors
  let basis_positions := L.get_basis_positions
  if add_noise = true ∧ noise_level * L.a < 0 ∧ 0 < nx ∧ 0 < ny ∧ 0 < nz then
    none
  else some <|
  (List.range nx).flatMap fun i =>
    (List.range ny).flatMap fun j =>
      (List.range nz).flatMap fun k =>
        basis_positions.enum.map fun bp =>
          let cell_origin :=
            vadd (vadd (vsmul (i : ℝ) lattice_vectors.1)
                (vsmul (j : ℝ) lattice_vectors.2.1))
              (vsmul (k : ℝ) lattice_vectors.2.2)
          let atom_pos :=
            vadd cell_origin
              (vadd (vadd (vsmul bp.2.1 lattice_vectors.1)
                  (vsmul bp.2.2.1 lattice_vectors.2.1))
                (vsmul bp.2.2.2 lattice_vectors.2.2))
          if add_noise then
            vadd atom_pos (vsmul (noise_level * L.a) (rng i j k bp.1))
          else atom_pos

/-- generate_chunk: the same loops as generate_lattice, but the k loop runs
over the z sub-range [nz_start, nz_end), i.e. Python range(nz_start, nz_end).
The same np.random.normal scale validation applies: with noise enabled and
noise_level * a negative, the first draw raises, and a draw is reached
exactly when nx, ny are positive and the sub-range is non-empty. -/
def generate_chunk (lattice : CrystalLattice) (nx ny nz_start nz_end : ℕ)
    (add_noise : Bool) (noise_level : ℝ) (rng : NoiseOracle) : Option (List Vec3) :=
  let lattice_vectors := lattice.get_lattice_vectors
  let basis_positions := lattice.get_basis_positions
  if add_noise = true ∧ noise_level * lattice.a < 0 ∧ 0 < nx ∧ 0 < ny ∧
      nz_start < nz_end then
    none
  else some <|
  (List.range nx).flatMap fun i =>
    (List.range ny).flatMap fun j =>
      (List.range' nz_start (nz_end - nz_start)).flatMap fun k =>
        basis_positions.enum.map fun bp =>
          let cell_origin :=
            vadd (vadd (vsmul (i : ℝ) lattice_vectors.1)
                (vsmul (j : ℝ) lattice_vectors.2.1))
              (vsmul (k : ℝ) lattice_vectors.2.2)
          let atom_pos :=
            vadd cell_origin
              (vadd (vadd (vsmul bp.2.1 lattice_vectors.1)
                  (vsmul bp.2.2.1 lattice_vectors.2.1))
                (vsmul bp.2.2.2 lattice_vectors.2.2))
          if add_noise then
            vadd atom_pos (vsmul (noise_level * lattice.a) (rng i j k bp.1))
          else atom_pos

/-- One iteration of the chunk-building loop of generate_lattice_parallel:
for worker index i, the z sub-range submitted for it, or none when the
sub-range would start at or beyond nz (the chunk is then not appended). -/
def chunkRangeOf (nz n_processes chunk_size i : ℕ) : Option (ℕ × ℕ) :=
  let nz_start := i * chunk_size
  let nz_end := if i = n_processes - 1 then nz else (i + 1) * chunk_size
  if nz_start < nz then some (nz_start, nz_end) else none

/-- The chunk list built by generate_lattice_parallel: worker index i gets
the sub-range starting at i * chunk_size, where chunk_size is
max 1 (nz // n_processes), the last worker absorbing the remainder. -/
def chunkRanges (nz n_processes : ℕ) : List (ℕ × ℕ) :=
  let chunk_size := max 1 (nz / n_processes)
  (List.range n_processes).filterMap (chunkRangeOf nz n_processes chunk_size)

/-- One row of an (N, 3) numpy array, as the list of its coordinates. -/
def vecToRow (v : Vec3) : List ℝ := [v.1, v.2.1, v.2.2]

/-- np.atleast_2d as np.vstack applies it to one chunk result: a chunk
with atoms is an (m, 3) array and keeps its m rows of width 3; an empty
chunk is np.array([]) of 1-D shape (0,), which is promoted to a single
row of width 0. -/
def np_atleast2d (ps : List Vec3) : List (List ℝ) :=
  if ps.isEmpty then [[]] else ps.map vecToRow

/-- np.vstack on a list of chunk results: raises (none) on an empty
argument list; otherwise promotes each array to 2-D and concatenates the
rows in order, raising when the rows do not all have the same width. -/
def np_vstack (arrays : List (List Vec3)) : Option (List (List ℝ)) :=
  match arrays with
  | [] => none
  | _ :: _ =>
      let rows := (arrays.map np_atleast2d).flatten
      if rows.all fun r => r.length = (rows.headD []).length then some rows
      else none

/-- Pool.map result collection: if any worker's computation raised
(none), the pool re-raises it and the whole parallel request aborts;
otherwise the per-chunk results are collected in submission order. -/
def pool_map_results {α : Type*} : List (Option α) → Option (List α)
  | [] => some []
  | r :: rs => r.bind fun x => (pool_map_results rs).bind fun xs => some (x :: xs)

/-- generate_lattice_parallel: maps generate_chunk over the chunk list via
the worker pool (a worker exception aborts the whole request) and stacks
the per-chunk arrays in submission order with np.vstack, which raises
(none) when the chunk list is empty and promotes the shape-(0,) result of
an empty chunk to one row of width 0.  The worker pool only schedules
these independent pure computations, so it is not modelled beyond error
propagation and the in-order concatenation. -/
def generate_lattice_parallel (lattice : CrystalLattice) (nx ny nz : ℕ)
    (add_noise : Bool) (noise_level : ℝ) (n_processes : ℕ) (rng : NoiseOracle) :
    Option (List (List ℝ)) :=
  let chunks := chunkRanges nz n_processes
  match pool_map_results (chunks.map fun se =>
      generate_chunk lattice nx ny se.1 se.2 add_noise noise_level rng) with
  | none => none
  | some results => np_vstack results

/-- generate_chunk_optimized: reconstructs the lattice from the primitive
identifier and parameters (propagating the constructor's ValueError as
none), preallocates a zero array of total_atoms rows (np.zeros raises,
hence none, when nx * ny * (nz_end - nz_start) * basis_count is negative),
then fills it in loop order; rows the loop does not reach keep their
zero fill.  As in generate_chunk, np.random.normal's scale validation
raises at the first draw when noise is enabled, the scale
noise_level * a is negative, and the loop body runs at least once. -/
def generate_chunk_optimized (lattice_type : String) (a b c alpha beta gamma : ℝ)
    (nx ny nz_start nz_end : ℕ) (add_noise : Bool) (noise_level : ℝ)
    (rng : NoiseOracle) : Option (List Vec3) :=
  match mkCrystalLattice lattice_type a b c alpha beta gamma with
  | none => none
  | some lattice =>
      let lattice_vectors := lattice.get_lattice_vectors
      let basis_positions := lattice.get_basis_positions
      let basis_count := basis_positions.length
      let total_atoms : ℤ :=
        (nx : ℤ) * (ny : ℤ) * ((nz_end : ℤ) - (nz_start : ℤ)) * (basis_count : ℤ)
      if total_atoms < 0 then none
      else if add_noise = true ∧ noise_level * lattice.a < 0 ∧ 0 < nx ∧ 0 < ny ∧
          nz_start < nz_end then
        none
      else
        let writes :=
          (List.range nx).flatMap fun i =>
            (List.range ny).flatMap fun j =>
              (List.range' nz_start (nz_end - nz_start)).flatMap fun k =>
                basis_positions.enum.map fun bp =>
                  let cell_origin :=
                    vadd (vadd (vsmul (i : ℝ) lattice_vectors.1)
                        (vsmul (j : ℝ) lattice_vectors.2.1))
                      (vsmul (k : ℝ) lattice_vectors.2.2)
                  let atom_pos :=
                    vadd cell_origin
                      (vadd (vadd (vsmul bp.2.1 lattice_vectors.1)
                          (vsmul bp.2.2.1 lattice_vectors.2.1))
                        (vsmul bp.2.2.2 lattice_vectors.2.2))
                  if add_noise then
                    vadd atom_pos (vsmul (noise_level * lattice.a) (rng i j k bp.1))
                  else atom_pos
        some (writes ++ List.replicate (total_atoms.toNat - writes.length) (0, 0, 0))

/-- Specification side (section 4.1): the constraint-projection table,
canonical (a, b, c, alpha, beta, gamma) as a function of the raw values,
one row per syngony, written from the table of the specification. -/
def specCanonicalTable (syngony : Syngony) (a b c alpha beta gamma : ℝ) :
    ℝ × ℝ × ℝ × ℝ × ℝ × ℝ :=
  match syngony with
  | .cubic => (a, a, a, 90, 90, 90)
  | .tetragonal => (a, a, c, 90, 90, 90)
  | .orthorhombic => (a, b, c, 90, 90, 90)
  | .hexagonal => (a, a, c, 90, 90, 120)
  | .trigonal => (a, a, a, alpha, alpha, alpha)
  | .monoclinic => (a, b, c, 90, beta, 90)
  | .triclinic => (a, b, c, alpha, beta, gamma)

/-- Specification side (section 4.3): the ordered offset list per
centering code, always starting with the primitive offset (0,0,0),
followed by the additional offsets of the table. -/
def specBasisOffsets (code : Centering) : List Vec3 :=
  (0, 0, 0) ::
    match code with
    | .I => [(0.5, 0.5, 0.5)]
    | .F => [(0.5, 0.5, 0), (0.5, 0, 0.5), (0, 0.5, 0.5)]
    | .C => [(0.5, 0.5, 0)]
    | .R => [(1/3, 2/3, 2/3), (2/3, 1/3, 1/3)]
    | .P => []

/-- Specification side (section 8): the expected offset count per
centering code. -/
def specOffsetCount (code : Centering) : ℕ :=
  match code with
  | .P => 1
  | .I => 2
  | .C => 2
  | .F => 4
  | .R => 3

/-- Specification side (section 4.2): the three cell vectors written from
the stated crystallographic convention, angles first converted from
degrees to radians. -/
def specLatticeVectors (a b c alpha beta gamma : ℝ) : Vec3 × Vec3 × Vec3 :=
  let ar := radians alpha
  let br := radians beta
  let gr := radians gamma
  ((a, 0, 0),
   (b * Real.cos gr, b * Real.sin gr, 0),
   (c * Real.cos br,
    c * (Real.cos ar - Real.cos br * Real.cos gr) / Real.sin gr,
    c * Real.sqrt (1 - Real.cos br ^ 2 -
      ((Real.cos ar - Real.cos br * Real.cos gr) / Real.sin gr) ^ 2)))

/-- Membership of a fractional coordinate triple in the half-open unit
box used by the specification's data model. -/
def inUnitBox (v : Vec3) : Prop :=
  0 ≤ v.1 ∧ v.1 < 1 ∧ 0 ≤ v.2.1 ∧ v.2.1 < 1 ∧ 0 ≤ v.2.2 ∧ v.2.2 < 1

/-- Concrete fixture: the cubic primitive lattice with the default
parameters, as built by mkCrystalLattice "cubic_primitive" 5 5 5 90 90 90. -/
def Lcubic : CrystalLattice := ⟨⟨.cubic, .P⟩, 5, 5, 5, 90, 90, 90⟩

/-- Concrete fixture: the trigonal rhombohedral lattice with parameters
(5, 5, 5, 70, 70, 70), as built by mkCrystalLattice. -/
def LtrigR : CrystalLattice := ⟨⟨.trigonal, .R⟩, 5, 5, 5, 70, 70, 70⟩

/-- Concrete fixture: a triclinic primitive lattice whose canonical c is
negative, as built by mkCrystalLattice "triclinic_primitive" with raw
parameters (1, 1, -1, 90, 90, 90), which triclinic projection keeps. -/
def LtriNeg : CrystalLattice := ⟨⟨.triclinic, .P⟩, 1, 1, -1, 90, 90, 90⟩

/-- Concrete fixture: the noise oracle drawing the zero vector for every
atom. -/
def zeroOracle : NoiseOracle := fun _ _ _ _ => (0, 0, 0)

/-- Proof helper: the noise-free atom list of the cell with index
(i, j, k), in basis order.  Both the sequential and the chunked generators
reduce to flat maps of this list when noise is disabled. -/
def atomsOfCell (L : CrystalLattice) (i j k : ℕ) : List Vec3 :=
  L.get_basis_positions.enum.map fun bp =>
    vadd
      (vadd (vadd (vsmul (i : ℝ) L.get_lattice_vectors.1)
          (vsmul (j : ℝ) L.get_lattice_vectors.2.1))
        (vsmul (k : ℝ) L.get_lattice_vectors.2.2))
      (vadd (vadd (vsmul bp.2.1 L.get_lattice_vectors.1)
          (vsmul bp.2.2.1 L.get_lattice_vectors.2.1))
        (vsmul bp.2.2.2 L.get_lattice_vectors.2.2))

/-- Proof helper: the multiset of atoms generated for the x and y extents
nx, ny and an arbitrary list of z indices, noise disabled. -/
def chunkMultiset (L : CrystalLattice) (nx ny : ℕ) (ks : List ℕ) : Multiset Vec3 :=
  ((List.range nx).flatMap fun i =>
    (List.range ny).flatMap fun j =>
      ks.flatMap fun k => atomsOfCell L i j k : List Vec3)

/-- Helper: with noise disabled the sequential generator is the flat map
of the per-cell atom lists over the full index ranges; the noise oracle
does not occur in the result. -/
theorem generate_lattice_noiseless (L : CrystalLattice) (nx ny nz : ℕ)
    (noise_level : ℝ) (rng : NoiseOracle) :
    L.generate_lattice nx ny nz false noise_level rng =
      some ((List.range nx).flatMap fun i =>
        (List.range ny).flatMap fun j =>
          (List.range nz).flatMap fun k => atomsOfCell L i j k) := by
  simp [CrystalLattice.generate_lattice, atomsOfCell]

/-- Helper: with noise disabled the chunk generator is the flat map of the
per-cell atom lists, the z loop running over the sub-range. -/
theorem generate_chunk_noiseless (L : CrystalLattice) (nx ny nz_start nz_end : ℕ)
    (noise_level : ℝ) (rng : NoiseOracle) :
    generate_chunk L nx ny nz_start nz_end false noise_level rng =
      some ((List.range nx).flatMap fun i =>
        (List.range ny).flatMap fun j =>
          (List.range' nz_start (nz_end - nz_start)).flatMap fun k =>
            atomsOfCell L i j k) := by
  simp [generate_chunk, atomsOfCell]

/-- Helper: the length of a flat map whose pieces all have length c. -/
theorem flatMap_length_const {α β : Type*} (l : List α) (f : α → List β) (c : ℕ)
    (h : ∀ x, (f x).length = c) : (l.flatMap f).length = l.length * c := by
  induction l with
  | nil => simp
  | cons a t ih => simp only [List.flatMap_cons, List.length_append, h, ih,
      List.length_cons]; ring

/-- C8: with noise disabled the sequential generator is a pure function of
its inputs: the random stream does not influence the result, so two runs
with identical inputs give identical output, point for point in the same
order. -/
theorem C8_noiseless_deterministic (L : CrystalLattice) (nx ny nz : ℕ)
    (noise_level : ℝ) (rng rng' : NoiseOracle) :
    L.generate_lattice nx ny nz false noise_level rng =
      L.generate_lattice nx ny nz false noise_level rng' := by
  rw [generate_lattice_noiseless, generate_lattice_noiseless]

/-- C2: for every recognized lattice-class identifier, the canonical
parameters stored by the constructor satisfy the syngony table of the
specification exactly, whatever the raw parameters were. -/
theorem C2_canonical_table (lt : String) (info : LatticeInfo) (L : CrystalLattice)
    (a b c alpha beta gamma : ℝ) (hinfo : LATTICE_TYPES lt = some info)
    (hmk : mkCrystalLattice lt a b c alpha beta gamma = some L) :
    (L.a, L.b, L.c, L.alpha, L.beta, L.gamma) =
      specCanonicalTable info.syngony a b c alpha beta gamma := by
  unfold mkCrystalLattice at hmk
  rw [hinfo] at hmk
  simp only [Option.some.injEq] at hmk
  subst hmk
  rcases info with ⟨syn, cent⟩
  cases syn <;> rfl

/-- Witness for C2 at the cubic primitive class with raw parameters
(5, 4, 3, 80, 70, 60): the discarded raw values are replaced following the
cubic row of the table. -/
theorem C2_canonical_table_witness :
    LATTICE_TYPES "cubic_primitive" = some ⟨.cubic, .P⟩ ∧
      mkCrystalLattice "cubic_primitive" 5 4 3 80 70 60 = some Lcubic ∧
      (Lcubic.a, Lcubic.b, Lcubic.c, Lcubic.alpha, Lcubic.beta, Lcubic.gamma) =
        specCanonicalTable Syngony.cubic 5 4 3 80 70 60 :=
  ⟨rfl, rfl,
    C2_canonical_table "cubic_primitive" ⟨.cubic, .P⟩ Lcubic 5 4 3 80 70 60 rfl rfl⟩

/-- C4: for every lattice object, the basis-position list is exactly the
offset list of the specification table for its centering code, first
element (0,0,0), with the stated counts; it depends only on the centering
code, not on the syngony or the parameters. -/
theorem C4_basis_offsets (L : CrystalLattice) :
    L.get_basis_positions = specBasisOffsets L.info.centering ∧
      L.get_basis_positions.length = specOffsetCount L.info.centering := by
  rcases L with ⟨⟨syn, cent⟩, a, b, c, al, be, ga⟩
  cases cent <;> exact ⟨rfl, rfl⟩

/-- Helper: the LATTICE_TYPES lookup fails exactly on identifiers outside
the fourteen-entry key list. -/
theorem LATTICE_TYPES_none_iff (s : String) :
    LATTICE_TYPES s = none ↔ s ∉ validLatticeTypes := by
  constructor
  · intro h hmem
    fin_cases hmem <;> exact absurd h (by decide)
  · intro hmem
    simp only [validLatticeTypes, List.mem_cons, List.not_mem_nil, or_false,
      not_or] at hmem
    obtain ⟨h1, h2, h3, h4, h5, h6, h7, h8, h9, h10, h11, h12, h13, h14⟩ := hmem
    unfold LATTICE_TYPES
    rw [if_neg h1, if_neg h2, if_neg h3, if_neg h4, if_neg h5, if_neg h6,
      if_neg h7, if_neg h8, if_neg h9, if_neg h10, if_neg h11, if_neg h12,
      if_neg h13, if_neg h14]

/-- C6: construction fails (raising the unknown-lattice-class error before
any field is assigned, hence leaving no partial state) exactly when the
identifier is not one of the fourteen recognized ones; equivalently, for
every recognized identifier construction succeeds. -/
theorem C6_unknown_lattice_class (s : String) (a b c alpha beta gamma : ℝ) :
    mkCrystalLattice s a b c alpha beta gamma = none ↔ s ∉ validLatticeTypes := by
  rw [← LATTICE_TYPES_none_iff]
  unfold mkCrystalLattice
  cases h : LATTICE_TYPES s <;> simp [h]

/-- Counterexample to C7: the trigonal rhombohedral class (centering R)
has a basis-offset list of 3 elements, which is neither 1, 2 nor 4. -/
theorem C7_counterexample :
    mkCrystalLattice "trigonal_rhombohedral" 5 5 5 70 70 70 = some LtrigR ∧
      LtrigR.get_basis_positions.length = 3 ∧
      ¬(LtrigR.get_basis_positions.length = 1 ∨
        LtrigR.get_basis_positions.length = 2 ∨
        LtrigR.get_basis_positions.length = 4) := by
  refine ⟨rfl, rfl, ?_⟩
  intro h
  rcases h with h | h | h <;> exact absurd h (by norm_num [LtrigR,
    CrystalLattice.get_basis_positions, basisPositionsOfCentering])

/-- C7 amended: the basis-offset list has 1, 2, 3 or 4 elements, all lying
in the half-open unit box, and is a function of the centering code alone. -/
theorem C7_basis_offsets_amended (L : CrystalLattice) :
    (L.get_basis_positions.length = 1 ∨ L.get_basis_positions.length = 2 ∨
        L.get_basis_positions.length = 3 ∨ L.get_basis_positions.length = 4) ∧
      L.get_basis_positions = basisPositionsOfCentering L.info.centering ∧
      L.get_basis_positions.Forall inUnitBox := by
  rcases L with ⟨⟨syn, cent⟩, a, b, c, al, be, ga⟩
  cases cent <;>
    refine ⟨by norm_num [CrystalLattice.get_basis_positions,
      basisPositionsOfCentering], rfl, ?_⟩ <;>
    simp only [CrystalLattice.get_basis_positions, basisPositionsOfCentering,
      List.Forall, inUnitBox] <;>
    norm_num

/-- Helper: 90 degrees in radians. -/
theorem radians_ninety : radians 90 = Real.pi / 2 := by
  unfold radians; ring

/-- Helper: pulling a non-negative factor out of the square root used for
the z-component of the third cell vector. -/
theorem sqrt_scale (cc cb q : ℝ) (h : 0 ≤ cc) :
    Real.sqrt (cc ^ 2 - (cc * cb) ^ 2 - (cc * q) ^ 2) =
      cc * Real.sqrt (1 - cb ^ 2 - q ^ 2) := by
  rw [show cc ^ 2 - (cc * cb) ^ 2 - (cc * q) ^ 2 =
      cc ^ 2 * (1 - cb ^ 2 - q ^ 2) by ring,
    Real.sqrt_mul (sq_nonneg cc), Real.sqrt_sq h]

/-- Counterexample to C5: with the accepted-and-propagated negative edge
length c = -1 (triclinic class, right angles), the code computes the
z-component of the third cell vector as sqrt(c^2 - cx^2 - cy^2) = 1,
whereas the specification formula gives c * sqrt(1 - ...) = -1, so the
derived vectors differ from the stated convention. -/
theorem C5_counterexample :
    mkCrystalLattice "triclinic_primitive" 1 1 (-1) 90 90 90 = some LtriNeg ∧
      LtriNeg.get_lattice_vectors ≠ specLatticeVectors 1 1 (-1) 90 90 90 := by
  refine ⟨rfl, ?_⟩
  intro h
  have h3 := congrArg (fun t : Vec3 × Vec3 × Vec3 => t.2.2.2.2) h
  simp only [CrystalLattice.get_lattice_vectors, specLatticeVectors, LtriNeg,
    radians_ninety, Real.cos_pi_div_two, Real.sin_pi_div_two] at h3
  norm_num at h3

/-- C5 amended: for every lattice whose canonical edge length c is
non-negative, the derived cell vectors equal the specification's
convention exactly; the code computes the z-component as
sqrt(c^2 - cx^2 - cy^2), which agrees with c * sqrt(1 - ...) only under
that sign restriction. -/
theorem C5_vectors_amended (L : CrystalLattice) (hc : 0 ≤ L.c) :
    L.get_lattice_vectors = specLatticeVectors L.a L.b L.c L.alpha L.beta L.gamma := by
  simp only [CrystalLattice.get_lattice_vectors, specLatticeVectors, mul_div_assoc]
  rw [sqrt_scale _ _ _ hc]

/-- Witness for C5 amended at the default cubic lattice, whose edge length
5 is non-negative. -/
theorem C5_vectors_amended_witness :
    0 ≤ Lcubic.c ∧
      Lcubic.get_lattice_vectors =
        specLatticeVectors Lcubic.a Lcubic.b Lcubic.c Lcubic.alpha Lcubic.beta
          Lcubic.gamma :=
  ⟨by norm_num [Lcubic], C5_vectors_amended Lcubic (by norm_num [Lcubic])⟩

/-- Helper: a worker whose sub-range would start at or beyond nz
contributes no chunk. -/
theorem chunkRangeOf_eq_none (nz W cs i : ℕ) (h : ¬ i * cs < nz) :
    chunkRangeOf nz W cs i = none := by
  simp [chunkRangeOf, h]

/-- Helper: a non-last worker whose sub-range starts below nz gets the
half-open range of one chunk size. -/
theorem chunkRangeOf_mid (nz W cs i : ℕ) (h : i * cs < nz) (hne : i ≠ W - 1) :
    chunkRangeOf nz W cs i = some (i * cs, (i + 1) * cs) := by
  simp [chunkRangeOf, h, hne]

/-- Helper: when the chunk size is max 1 (nz / W), any non-last sub-range
that starts below nz also ends at or below nz. -/
theorem chunk_key (nz W cs m : ℕ) (hcs : cs = max 1 (nz / W)) (hW : 1 ≤ W)
    (hm : m + 1 ≤ W) (h : m * cs < nz) : (m + 1) * cs ≤ nz := by
  rcases lt_or_le nz W with hlt | hge
  · have h0 : nz / W = 0 := Nat.div_eq_of_lt hlt
    have hcs1 : cs = 1 := by rw [hcs, h0]; exact max_eq_left (Nat.zero_le 1)
    rw [hcs1] at h ⊢
    omega
  · have hd : 1 ≤ nz / W := (Nat.one_le_div_iff (by omega)).2 hge
    have hcs2 : cs = nz / W := by rw [hcs]; exact max_eq_right hd
    calc (m + 1) * cs ≤ W * cs := Nat.mul_le_mul_right cs hm
    _ = W * (nz / W) := by rw [hcs2]
    _ ≤ nz := Nat.mul_div_le nz W

/-- Helper: the concatenation of the z sub-ranges of the first m workers
(none of them the last worker) covers exactly the first min (m * cs) nz
z indices, in order. -/
theorem chunkPrefix_flatten (nz W cs : ℕ)
    (hkey : ∀ m, m + 1 ≤ W → m * cs < nz → (m + 1) * cs ≤ nz) :
    ∀ m, m + 1 ≤ W →
      (((List.range m).filterMap (chunkRangeOf nz W cs)).map
        (fun se => List.range' se.1 (se.2 - se.1))).flatten =
        List.range' 0 (min (m * cs) nz) := by
  intro m
  induction m with
  | zero => intro _; simp
  | succ t ih =>
    intro hm
    have ht : t + 1 ≤ W := Nat.le_of_succ_le hm
    have hne : t ≠ W - 1 := by omega
    rw [List.range_succ, List.filterMap_append, List.map_append,
      List.flatten_append, ih ht]
    by_cases hlt : t * cs < nz
    · have hle : (t + 1) * cs ≤ nz := hkey t ht hlt
      rw [show List.filterMap (chunkRangeOf nz W cs) [t] = [(t * cs, (t + 1) * cs)]
          from by simp [List.filterMap_cons, chunkRangeOf_mid nz W cs t hlt hne]]
      simp only [List.map_cons, List.map_nil, List.flatten_cons, List.flatten_nil,
        List.append_nil]
      rw [min_eq_left (le_of_lt hlt), min_eq_left hle]
      have hsub : (t + 1) * cs - t * cs = cs := by
        have : (t + 1) * cs = t * cs + cs := by ring
        omega
      rw [hsub]
      have happ := List.range'_append 0 (t * cs) cs 1
      simp only [one_mul, Nat.zero_add] at happ
      rw [happ, show cs + t * cs = (t + 1) * cs from by ring]
    · have hge : nz ≤ t * cs := le_of_not_lt hlt
      rw [show List.filterMap (chunkRangeOf nz W cs) [t] = []
          from by simp [List.filterMap_cons, chunkRangeOf_eq_none nz W cs t hlt]]
      simp only [List.map_nil, List.flatten_nil, List.append_nil]
      rw [min_eq_right hge,
        min_eq_right (le_trans hge (Nat.mul_le_mul_right cs (Nat.le_succ t)))]

/-- Helper: the z sub-ranges built by generate_lattice_parallel partition
the full range of z indices exactly: concatenated in submission order they
give 0, 1, ..., nz - 1 with no index dropped or duplicated. -/
theorem chunkRanges_flatten (nz W : ℕ) (hW : 1 ≤ W) :
    ((chunkRanges nz W).map fun se => List.range' se.1 (se.2 - se.1)).flatten =
      List.range' 0 nz := by
  simp only [chunkRanges]
  set cs := max 1 (nz / W) with hcs
  have hkey : ∀ m, m + 1 ≤ W → m * cs < nz → (m + 1) * cs ≤ nz :=
    fun m hm h => chunk_key nz W cs m hcs hW hm h
  obtain ⟨V, rfl⟩ : ∃ V, W = V + 1 := ⟨W - 1, by omega⟩
  rw [List.range_succ, List.filterMap_append, List.map_append, List.flatten_append,
    chunkPrefix_flatten nz (V + 1) cs hkey V (le_refl (V + 1))]
  by_cases hlast : V * cs < nz
  · rw [show List.filterMap (chunkRangeOf nz (V + 1) cs) [V] = [(V * cs, nz)]
        from by simp [List.filterMap_cons, chunkRangeOf, hlast]]
    simp only [List.map_cons, List.map_nil, List.flatten_cons, List.flatten_nil,
      List.append_nil]
    rw [min_eq_left (le_of_lt hlast)]
    have happ := List.range'_append 0 (V * cs) (nz - V * cs) 1
    simp only [one_mul, Nat.zero_add] at happ
    rw [happ, show nz - V * cs + V * cs = nz from by omega]
  · rw [show List.filterMap (chunkRangeOf nz (V + 1) cs) [V] = []
        from by simp [List.filterMap_cons, chunkRangeOf, hlast]]
    simp only [List.map_nil, List.flatten_nil, List.append_nil]
    rw [min_eq_right (le_of_not_lt hlast)]

/-- Helper: the multiset of an appended pair of lists is the sum of the
two multisets. -/
theorem coe_append_multiset {α : Type*} (l1 l2 : List α) :
    ((l1 ++ l2 : List α) : Multiset α) = (l1 : Multiset α) + (l2 : Multiset α) := rfl

/-- Helper: the multiset of a concatenated list of lists is the sum of the
multisets of the pieces. -/
theorem coe_flatten_multiset {α : Type*} (l : List (List α)) :
    Multiset.ofList l.flatten = (l.map Multiset.ofList).sum := by
  induction l with
  | nil => rfl
  | cons a t ih =>
      rw [List.flatten_cons, List.map_cons, List.sum_cons, ← ih,
        coe_append_multiset]

/-- Helper: the multiset of a flat map is the sum of the multisets of the
pieces. -/
theorem coe_flatMap_multiset {α β : Type*} (l : List α) (f : α → List β) :
    Multiset.ofList (l.flatMap f) =
      (l.map fun a => Multiset.ofList (f a)).sum := by
  induction l with
  | nil => rfl
  | cons a t ih =>
      rw [List.flatMap_cons, List.map_cons, List.sum_cons, ← ih,
        coe_append_multiset]

/-- Helper: a list sum of pointwise sums splits into two list sums. -/
theorem list_sum_map_add {α M : Type*} [AddCommMonoid M] (l : List α) (f g : α → M) :
    (l.map fun x => f x + g x).sum = (l.map f).sum + (l.map g).sum := by
  induction l with
  | nil => simp
  | cons a t ih =>
      simp only [List.map_cons, List.sum_cons, ih]
      rw [add_add_add_comm]

/-- Helper: the atom multiset of a concatenation of z-index lists splits
into the atom multisets of the parts, because the z loop is innermost and
multiset addition commutes with the outer loops. -/
theorem chunkMultiset_append (L : CrystalLattice) (nx ny : ℕ) (ks1 ks2 : List ℕ) :
    chunkMultiset L nx ny (ks1 ++ ks2) =
      chunkMultiset L nx ny ks1 + chunkMultiset L nx ny ks2 := by
  unfold chunkMultiset
  simp only [coe_flatMap_multiset, List.flatMap_append, coe_append_multiset,
    List.map_append, List.sum_append, list_sum_map_add]

/-- Helper: the atom multiset of a flattened list of z-index lists is the
sum over the pieces. -/
theorem chunkMultiset_flatten (L : CrystalLattice) (nx ny : ℕ)
    (kls : List (List ℕ)) :
    chunkMultiset L nx ny kls.flatten = (kls.map (chunkMultiset L nx ny)).sum := by
  induction kls with
  | nil => simp [chunkMultiset]
  | cons a t ih =>
      simp only [List.flatten_cons, chunkMultiset_append, ih, List.map_cons,
        List.sum_cons]
/-- C9: with nz = 0 no chunk survives the nz_start < nz filter, the pool
collects an empty result list, and np.vstack raises on it, for every
worker count, lattice, noise setting, and x/y extents; the sequential
generator instead returns the empty point set (no atom exists, so not
even an invalid noise scale is ever drawn). -/
theorem C9_parallel_nz_zero (L : CrystalLattice) (nx ny W : ℕ) (add_noise : Bool)
    (noise_level : ℝ) (rng rng' : NoiseOracle) (_hW : 1 ≤ W) :
    generate_lattice_parallel L nx ny 0 add_noise noise_level W rng = none ∧
      L.generate_lattice nx ny 0 add_noise noise_level rng' = some [] := by
  constructor
  · have hempty : chunkRanges 0 W = [] := by
      simp only [chunkRanges]
      exact List.filterMap_eq_nil_iff.2 fun i _ =>
        chunkRangeOf_eq_none 0 W _ i (by omega)
    simp only [generate_lattice_parallel, hempty, List.map_nil]
    rfl
  · simp [CrystalLattice.generate_lattice]

/-- Witness for C9 at the default cubic lattice with one worker. -/
theorem C9_parallel_nz_zero_witness :
    generate_lattice_parallel Lcubic 1 1 0 false 0.05 1 zeroOracle = none ∧
      Lcubic.generate_lattice 1 1 0 false 0.05 zeroOracle = some [] :=
  C9_parallel_nz_zero Lcubic 1 1 1 false 0.05 zeroOracle zeroOracle (le_refl 1)

/-- Counterexample to C1 as stated for all non-negative extents, noise
disabled.  At nz = 0 the parallel generator raises (np.vstack of an empty
list) while the sequential generator returns the empty point set; and at
nx = 0 with nz = 1 the single chunk is the 1-D empty array, which
np.vstack promotes to one row of width 0, so the parallel generator
returns an array with one row while the sequential generator returns
zero points. -/
theorem C1_counterexample :
    generate_lattice_parallel Lcubic 1 1 0 false 0.05 1 zeroOracle = none ∧
      Lcubic.generate_lattice 1 1 0 false 0.05 zeroOracle = some [] ∧
      generate_lattice_parallel Lcubic 0 1 1 false 0.05 1 zeroOracle =
        some [[]] ∧
      Lcubic.generate_lattice 0 1 1 false 0.05 zeroOracle = some [] := by
  refine ⟨rfl, ?_, rfl, ?_⟩ <;> simp [CrystalLattice.generate_lattice]

/-- Helper: every basis-position list contains the primitive node, so it
is never empty. -/
theorem basis_positions_length_pos (L : CrystalLattice) :
    0 < L.get_basis_positions.length := by
  rcases L with ⟨⟨syn, cent⟩, a, b, c, al, be, ga⟩
  cases cent <;>
    simp [CrystalLattice.get_basis_positions, basisPositionsOfCentering]

/-- Helper: every sub-range submitted by the partitioner starts strictly
below its end, so its chunk performs at least one z iteration. -/
theorem chunkRanges_mem_lt (nz W : ℕ) (se : ℕ × ℕ)
    (hmem : se ∈ chunkRanges nz W) : se.1 < se.2 := by
  simp only [chunkRanges, List.mem_filterMap] at hmem
  obtain ⟨i, -, hf⟩ := hmem
  simp only [chunkRangeOf] at hf
  by_cases h : i * max 1 (nz / W) < nz
  · rw [if_pos h, Option.some.injEq] at hf
    subst hf
    by_cases hlast : i = W - 1
    · rw [if_pos hlast]
      exact h
    · rw [if_neg hlast]
      have hcs : 0 < max 1 (nz / W) := lt_of_lt_of_le Nat.zero_lt_one
        (le_max_left 1 (nz / W))
      calc i * max 1 (nz / W) < i * max 1 (nz / W) + max 1 (nz / W) :=
            Nat.lt_add_of_pos_right hcs
      _ = (i + 1) * max 1 (nz / W) := by ring
  · rw [if_neg h] at hf
    exact absurd hf (by simp)

/-- Helper: when every worker returns, the pool collects the results in
submission order. -/
theorem pool_map_results_map_some {α γ : Type*} (l : List α) (f : α → γ) :
    pool_map_results (l.map fun x => some (f x)) = some (l.map f) := by
  induction l with
  | nil => rfl
  | cons a t ih => simp [pool_map_results, ih]

/-- Helper: np.vstack leaves the rows of a chunk that has atoms alone. -/
theorem np_atleast2d_of_ne_nil (ps : List Vec3) (h : ps ≠ []) :
    np_atleast2d ps = ps.map vecToRow := by
  unfold np_atleast2d
  rw [if_neg (fun hc => h (List.isEmpty_iff.1 hc))]

/-- Helper: np.vstack of a non-empty list of chunk arrays that all have
atoms succeeds and returns the concatenation of their width-3 rows. -/
theorem np_vstack_of_rows (arrays : List (List Vec3)) (hne : arrays ≠ [])
    (hnonempty : ∀ ps ∈ arrays, ps ≠ []) :
    np_vstack arrays = some (arrays.flatten.map vecToRow) := by
  obtain ⟨a0, as, rfl⟩ := List.exists_cons_of_ne_nil hne
  simp only [np_vstack]
  rw [List.map_eq_map_iff.mpr fun ps hps => np_atleast2d_of_ne_nil ps
    (hnonempty ps hps)]
  rw [show (((a0 :: as).map fun ps => ps.map vecToRow)).flatten =
      ((a0 :: as).flatten).map vecToRow from
    (List.map_flatten vecToRow (a0 :: as)).symm]
  obtain ⟨v0, vs, rfl⟩ := List.exists_cons_of_ne_nil (hnonempty a0 (by simp))
  rw [if_pos]
  rw [List.all_eq_true]
  intro r hr
  simp only [List.flatten_cons, List.cons_append, List.map_cons,
    List.headD_cons] at hr ⊢
  rcases List.mem_cons.1 hr with rfl | hr'
  · simp
  · obtain ⟨v, -, rfl⟩ := List.mem_map.1 hr'
    simp [vecToRow]

/-- Helper: the length of the triple-loop shape with an arbitrary list of
z indices. -/
theorem gen_shape_length_ks (nx ny bc : ℕ) (ks : List ℕ) (f : ℕ → ℕ → ℕ → List Vec3)
    (hf : ∀ i j k, (f i j k).length = bc) :
    (((List.range nx).flatMap fun i =>
      (List.range ny).flatMap fun j =>
        ks.flatMap fun k => f i j k)).length = nx * ny * ks.length * bc := by
  have hk : ∀ i j, ((ks.flatMap fun k => f i j k)).length = ks.length * bc :=
    fun i j => flatMap_length_const _ _ bc (hf i j)
  have hj : ∀ i, (((List.range ny).flatMap fun j =>
      ks.flatMap fun k => f i j k)).length = ny * (ks.length * bc) := by
    intro i
    rw [flatMap_length_const _ _ (ks.length * bc) (hk i), List.length_range]
  rw [flatMap_length_const _ _ (ny * (ks.length * bc)) hj, List.length_range]
  ring

/-- Helper: whenever the chunk generator returns (it does not hit the
negative-noise-scale error), the returned point list has exactly
nx * ny * (nz_end - nz_start) * basis-count entries, for either noise
setting. -/
theorem generate_chunk_length (L : CrystalLattice) (nx ny nz_start nz_end : ℕ)
    (add_noise : Bool) (noise_level : ℝ) (rng : NoiseOracle) (ps : List Vec3)
    (h : generate_chunk L nx ny nz_start nz_end add_noise noise_level rng =
      some ps) :
    ps.length = nx * ny * (nz_end - nz_start) * L.get_basis_positions.length := by
  simp only [generate_chunk] at h
  split_ifs at h <;>
    (rw [Option.some.injEq] at h
     subst h
     rw [show nx * ny * (nz_end - nz_start) * L.get_basis_positions.length =
         nx * ny * (List.range' nz_start (nz_end - nz_start)).length *
           L.get_basis_positions.length from by rw [List.length_range']]
     exact gen_shape_length_ks nx ny _ _ _ (fun i j k => by
       rw [List.length_map, List.enum_length]))

/-- Helper: with noise disabled the chunk generator does not depend on the
random stream. -/
theorem generate_chunk_rng_independent (L : CrystalLattice)
    (nx ny nz_start nz_end : ℕ) (noise_level : ℝ) (rng rng' : NoiseOracle) :
    generate_chunk L nx ny nz_start nz_end false noise_level rng =
      generate_chunk L nx ny nz_start nz_end false noise_level rng' := by
  rw [generate_chunk_noiseless, generate_chunk_noiseless]

/-- C1 amended: for every lattice, positive extents nx, ny, nz, worker
count at least 1 and noise disabled, the parallel generator succeeds and
returns an array with the same number of rows and the same multiset of
3-D coordinate rows as the sequential generator's point list: the z
partition neither drops nor duplicates any sub-range point, also when nz
is not divisible by the worker count. -/
theorem C1_parallel_refines_sequential (L : CrystalLattice) (nx ny nz W : ℕ)
    (noise_level : ℝ) (rng rng' : NoiseOracle) (hnx : 1 ≤ nx) (hny : 1 ≤ ny)
    (hnz : 1 ≤ nz) (hW : 1 ≤ W) :
    ∃ rows ps,
      generate_lattice_parallel L nx ny nz false noise_level W rng = some rows ∧
        L.generate_lattice nx ny nz false noise_level rng' = some ps ∧
        rows.length = ps.length ∧
        Multiset.ofList rows = Multiset.ofList (ps.map vecToRow) := by
  have hBpos := basis_positions_length_pos L
  have hchunks_some : ((chunkRanges nz W).map fun se =>
      generate_chunk L nx ny se.1 se.2 false noise_level rng) =
      (chunkRanges nz W).map fun se =>
        some ((List.range nx).flatMap fun i =>
          (List.range ny).flatMap fun j =>
            (List.range' se.1 (se.2 - se.1)).flatMap fun k =>
              atomsOfCell L i j k) :=
    List.map_eq_map_iff.mpr fun se _ =>
      generate_chunk_noiseless L nx ny se.1 se.2 noise_level rng
  have hpool : pool_map_results ((chunkRanges nz W).map fun se =>
      generate_chunk L nx ny se.1 se.2 false noise_level rng) =
      some ((chunkRanges nz W).map fun se =>
        (List.range nx).flatMap fun i =>
          (List.range ny).flatMap fun j =>
            (List.range' se.1 (se.2 - se.1)).flatMap fun k =>
              atomsOfCell L i j k) := by
    rw [hchunks_some]
    exact pool_map_results_map_some _ _
  have hmapmap : ((chunkRanges nz W).map fun se =>
      chunkMultiset L nx ny (List.range' se.1 (se.2 - se.1))) =
      ((chunkRanges nz W).map fun se =>
        List.range' se.1 (se.2 - se.1)).map (chunkMultiset L nx ny) := by
    rw [List.map_map]
    rfl
  have hms : Multiset.ofList
      (((chunkRanges nz W).map fun se =>
        (List.range nx).flatMap fun i =>
          (List.range ny).flatMap fun j =>
            (List.range' se.1 (se.2 - se.1)).flatMap fun k =>
              atomsOfCell L i j k).flatten) =
      Multiset.ofList ((List.range nx).flatMap fun i =>
        (List.range ny).flatMap fun j =>
          (List.range nz).flatMap fun k => atomsOfCell L i j k) := by
    rw [coe_flatten_multiset, List.map_map]
    rw [show (Multiset.ofList ∘ fun se : ℕ × ℕ =>
        (List.range nx).flatMap fun i =>
          (List.range ny).flatMap fun j =>
            (List.range' se.1 (se.2 - se.1)).flatMap fun k =>
              atomsOfCell L i j k) =
        fun se : ℕ × ℕ => chunkMultiset L nx ny (List.range' se.1 (se.2 - se.1))
      from funext fun se => rfl]
    rw [hmapmap, ← chunkMultiset_flatten, chunkRanges_flatten nz W hW,
      ← List.range_eq_range']
    rfl
  have hne : chunkRanges nz W ≠ [] := by
    intro h0
    have hfl := chunkRanges_flatten nz W hW
    rw [h0] at hfl
    simp only [List.map_nil, List.flatten_nil] at hfl
    rw [eq_comm, List.range'_eq_nil] at hfl
    omega
  have harr_ne : ((chunkRanges nz W).map fun se =>
      (List.range nx).flatMap fun i =>
        (List.range ny).flatMap fun j =>
          (List.range' se.1 (se.2 - se.1)).flatMap fun k =>
            atomsOfCell L i j k) ≠ [] := by
    intro h0
    exact hne (List.map_eq_nil_iff.1 h0)
  have hargs_nonempty : ∀ ps ∈ ((chunkRanges nz W).map fun se =>
      (List.range nx).flatMap fun i =>
        (List.range ny).flatMap fun j =>
          (List.range' se.1 (se.2 - se.1)).flatMap fun k =>
            atomsOfCell L i j k), ps ≠ [] := by
    intro ps hps
    obtain ⟨se, hse, rfl⟩ := List.mem_map.1 hps
    have hlt := chunkRanges_mem_lt nz W se hse
    have hlen := generate_chunk_length L nx ny se.1 se.2 false noise_level rng _
      (generate_chunk_noiseless L nx ny se.1 se.2 noise_level rng)
    intro h0
    rw [h0] at hlen
    have hpos : 0 < nx * ny * (se.2 - se.1) * L.get_basis_positions.length :=
      Nat.mul_pos (Nat.mul_pos (Nat.mul_pos hnx hny) (by omega)) hBpos
    have hzero : (0 : ℕ) = nx * ny * (se.2 - se.1) *
        L.get_basis_positions.length := hlen
    exact absurd hzero.symm (Nat.pos_iff_ne_zero.1 hpos)
  have hseq := generate_lattice_noiseless L nx ny nz noise_level rng'
  refine ⟨(((chunkRanges nz W).map fun se =>
      (List.range nx).flatMap fun i =>
        (List.range ny).flatMap fun j =>
          (List.range' se.1 (se.2 - se.1)).flatMap fun k =>
            atomsOfCell L i j k).flatten).map vecToRow,
    ((List.range nx).flatMap fun i =>
      (List.range ny).flatMap fun j =>
        (List.range nz).flatMap fun k => atomsOfCell L i j k),
    ?_, hseq, ?_, ?_⟩
  · simp only [generate_lattice_parallel]
    rw [hpool]
    exact np_vstack_of_rows _ harr_ne hargs_nonempty
  · rw [List.length_map]
    have hcard := congrArg Multiset.card hms
    simpa using hcard
  · exact congrArg (Multiset.map vecToRow) hms

/-- Witness for C1 amended at the default cubic lattice, nx = ny = nz = 1,
one worker. -/
theorem C1_parallel_refines_sequential_witness :
    ∃ rows ps,
      generate_lattice_parallel Lcubic 1 1 1 false 0.05 1 zeroOracle =
          some rows ∧
        Lcubic.generate_lattice 1 1 1 false 0.05 zeroOracle = some ps ∧
        rows.length = ps.length ∧
        Multiset.ofList rows = Multiset.ofList (ps.map vecToRow) :=
  C1_parallel_refines_sequential Lcubic 1 1 1 1 0.05 zeroOracle zeroOracle
    (le_refl 1) (le_refl 1) (le_refl 1) (le_refl 1)

/-- C10: for every recognized lattice type and parameters, extents, and a
well-ordered z sub-range, with noise disabled, the optimized chunk
generator (which reconstructs the lattice from the primitive parameters
and preallocates its output array) succeeds and produces exactly the same
point sequence as the naive chunk generator on the reconstructed
lattice. -/
theorem C10_optimized_equals_chunk (lattice_type : String)
    (a b c alpha beta gamma : ℝ) (L : CrystalLattice)
    (nx ny nz_start nz_end : ℕ) (noise_level : ℝ) (rng rng' : NoiseOracle)
    (hmk : mkCrystalLattice lattice_type a b c alpha beta gamma = some L)
    (hse : nz_start ≤ nz_end) :
    ∃ ps, generate_chunk L nx ny nz_start nz_end false noise_level rng' =
        some ps ∧
      generate_chunk_optimized lattice_type a b c alpha beta gamma nx ny nz_start
        nz_end false noise_level rng = some ps := by
  refine ⟨_, generate_chunk_noiseless L nx ny nz_start nz_end noise_level rng', ?_⟩
  simp only [generate_chunk_optimized]
  rw [hmk]
  have htot : ¬ ((nx : ℤ) * (ny : ℤ) * ((nz_end : ℤ) - (nz_start : ℤ)) *
      (L.get_basis_positions.length : ℤ) < 0) := by
    push_neg
    have h1 : (0 : ℤ) ≤ (nz_end : ℤ) - (nz_start : ℤ) := by omega
    have h2 : (0 : ℤ) ≤ (nx : ℤ) * (ny : ℤ) :=
      mul_nonneg (Int.natCast_nonneg nx) (Int.natCast_nonneg ny)
    exact mul_nonneg (mul_nonneg h2 h1) (Int.natCast_nonneg _)
  have hnoise : ¬(false = true ∧ noise_level * L.a < 0 ∧ 0 < nx ∧ 0 < ny ∧
      nz_start < nz_end) := by
    rintro ⟨hc, -⟩
    cases hc
  show (if ((nx : ℤ) * (ny : ℤ) * ((nz_end : ℤ) - (nz_start : ℤ)) *
        (L.get_basis_positions.length : ℤ) < 0) then none
      else if (false = true ∧ noise_level * L.a < 0 ∧ 0 < nx ∧ 0 < ny ∧
        nz_start < nz_end) then none
      else some
        (((List.range nx).flatMap fun i =>
          (List.range ny).flatMap fun j =>
            (List.range' nz_start (nz_end - nz_start)).flatMap fun k =>
              atomsOfCell L i j k) ++
        List.replicate
          (((nx : ℤ) * (ny : ℤ) * ((nz_end : ℤ) - (nz_start : ℤ)) *
            (L.get_basis_positions.length : ℤ)).toNat -
            ((List.range nx).flatMap fun i =>
              (List.range ny).flatMap fun j =>
                (List.range' nz_start (nz_end - nz_start)).flatMap fun k =>
                  atomsOfCell L i j k).length)
          (0, 0, 0))) =
    some ((List.range nx).flatMap fun i =>
      (List.range ny).flatMap fun j =>
        (List.range' nz_start (nz_end - nz_start)).flatMap fun k =>
          atomsOfCell L i j k)
  rw [if_neg htot, if_neg hnoise]
  have hlen := generate_chunk_length L nx ny nz_start nz_end false noise_level
    rng' _ (generate_chunk_noiseless L nx ny nz_start nz_end noise_level rng')
  have hcast : ((nx : ℤ) * (ny : ℤ) * ((nz_end : ℤ) - (nz_start : ℤ)) *
      (L.get_basis_positions.length : ℤ)) =
      ((nx * ny * (nz_end - nz_start) * L.get_basis_positions.length : ℕ) : ℤ) := by
    push_cast [Nat.cast_sub hse]
    ring
  rw [hcast, Int.toNat_natCast, hlen, Nat.sub_self, List.replicate_zero,
    List.append_nil]

/-- Witness for C10 at the cubic primitive lattice, extents 1 x 1 and the
z sub-range from 0 to 1. -/
theorem C10_optimized_equals_chunk_witness :
    mkCrystalLattice "cubic_primitive" 5 5 5 90 90 90 = some Lcubic ∧
      (0 : ℕ) ≤ 1 ∧
      ∃ ps, generate_chunk Lcubic 1 1 0 1 false 0.05 zeroOracle = some ps ∧
        generate_chunk_optimized "cubic_primitive" 5 5 5 90 90 90 1 1 0 1 false
          0.05 zeroOracle = some ps :=
  ⟨rfl, Nat.zero_le 1,
    C10_optimized_equals_chunk "cubic_primitive" 5 5 5 90 90 90 Lcubic 1 1 0 1
      0.05 zeroOracle zeroOracle rfl (Nat.zero_le 1)⟩
